import Mathlib

/-!
Verification development for the backlink core of the notabase repository
(`src/editor/useBacklinks.ts`).

The development shallowly embeds the two components of the core:

* the Backlink Finder (`getBacklinks`, `getBacklinkMatches`,
  `getBacklinkMatchesHelper`), and
* the Backlink Rewriter (the body of `updateBacklinks`, including the
  immer-based copy-on-write patch applied per `Match`).

Modelling choices, mirroring the TypeScript/Slate semantics:

* A Slate `Descendant` is either a text node or an element node.  An element
  carries its variant tag (`type`), the `noteId`/`noteTitle`/`isTextTitle`
  fields used by note-link elements (`none` models the JavaScript value
  `undefined` for elements that lack the field), its children, and an
  `extraText` field.  `extraText` models a `text` property sitting on an
  element object: the rewriter's statement `linkNodeChild.text = newTitle`
  assigns a `text` property to every child of a patched link, element
  children included, so the embedding must be able to represent such
  objects.  A well-formed Slate element never has one (`extraText = none`).
* Slate's `Text.isText(v)` tests whether `v.text` is a string, so an element
  carrying an `extraText` value counts as a text node for it; Slate's
  `Element.isElement(v)` tests whether `v.children` is a node list, so every
  element satisfies it.  `Node.string` checks `Text.isText` first and
  otherwise concatenates over children.
* JavaScript property access that throws a `TypeError` (reading `children`
  of `undefined` or of a text node during path resolution) is modelled with
  `Except Unit`: `.error ()` is a thrown exception, which aborts the whole
  `updateBacklinks` call before any upsert happens.
* The supabase upsert is modelled by returning the batch that would be sent:
  `updateBacklinks` returns `.ok none` when it returns early without
  upserting (no authenticated user), `.ok (some data)` when it calls
  `upsert data`, and `.error ()` when the rewrite throws.
-/

namespace Backlinks

/-- Element variant tags; `noteLink` is `ElementType.NoteLink`, every other
tag of the app is collapsed into `paragraph` or `other`. -/
inductive ElementType where
  | noteLink
  | paragraph
  | other (tag : String)
deriving DecidableEq

/-- A Slate `Descendant`: a text leaf or an element.  See the module
docstring for the role of each field; `extraText` models a stray `text`
property on an element object (absent on well-formed elements). -/
inductive Descendant where
  | text (text : String)
  | element (type : ElementType) (noteId : Option String) (noteTitle : Option String)
      (isTextTitle : Option Bool) (extraText : Option String) (children : List Descendant)

/-- A `Match` of the Finder: context string and path to the matched link. -/
structure BMatch where
  context : String
  path : List Nat
deriving DecidableEq

/-- A `Backlink`: id and title of the document containing the matches. -/
structure Backlink where
  id : String
  title : String
  matches' : List BMatch
deriving DecidableEq

/-- A `Note` (document) as the core reads it: id, title and content. -/
structure Note where
  id : String
  title : String
  content : List Descendant

/-- One record of the batch handed to the persistence collaborator. -/
structure UpsertRecord where
  id : String
  title : String
  user_id : String
  content : List Descendant

/-- Slate's `Text.isText`: true when the object has a string `text`
property — hence also true for an element carrying `extraText`. -/
def jsIsText : Descendant → Bool
  | .text _ => true
  | .element _ _ _ _ (some _) _ => true
  | .element _ _ _ _ none _ => false

/-- Slate's `Element.isElement`: true when the object has a children list. -/
def jsIsElement : Descendant → Bool
  | .text _ => false
  | .element _ _ _ _ _ _ => true

mutual

/-- Slate's `Node.string`: the text of a text node (checked first, so an
element with a stray `text` property returns that), otherwise the
concatenation of the children's strings. -/
def nodeString : Descendant → String
  | .text t => t
  | .element _ _ _ _ (some t) _ => t
  | .element _ _ _ _ none cs => nodeStringList cs

/-- Concatenation of `nodeString` over a list of nodes. -/
def nodeStringList : List Descendant → String
  | [] => ""
  | c :: cs => nodeString c ++ nodeStringList cs

end

/-- The Finder's match condition on a child node (useBacklinks.ts lines
130-135): `Element.isElement(child) && child.type === ElementType.NoteLink
&& child.noteId === noteId && Node.string(child)` (non-empty string is
truthy). -/
def isLinkTo : Descendant → String → Bool
  | .text _, _ => false
  | .element ty ni nt itt et cs, noteId =>
      ty == ElementType.noteLink && ni == some noteId &&
        nodeString (.element ty ni nt itt et cs) != ""

mutual

/-- `getBacklinkMatchesHelper` (lines 118-146): nodes satisfying
`Text.isText` (so also elements with a stray `text` property) contribute
nothing; otherwise walk the children with `helperChildren`, passing the
node's `Node.string` as the context for direct matches. -/
def getBacklinkMatchesHelper (node : Descendant) (noteId : String) (path : List Nat) : List BMatch :=
  match node with
  | .text _ => []
  | .element _ _ _ _ (some _) _ => []
  | .element _ _ _ _ none cs => helperChildren (nodeStringList cs) noteId path 0 cs

/-- The loop of `getBacklinkMatchesHelper` (lines 129-143): for each child
(labelled `idx`, `idx+1`, ...), if the child is an element, record a match
when `isLinkTo` holds and then recurse into the child. -/
def helperChildren (ctx noteId : String) (path : List Nat) : Nat → List Descendant → List BMatch
  | _, [] => []
  | idx, child :: rest =>
      (if jsIsElement child then
        (if isLinkTo child noteId then [⟨ctx, path ++ [idx]⟩] else [])
          ++ getBacklinkMatchesHelper child noteId (path ++ [idx])
      else []) ++ helperChildren ctx noteId path (idx + 1) rest

end

/-- The indexed loop of `getBacklinkMatches` (lines 112-114). -/
def getBacklinkMatchesTop (noteId : String) : Nat → List Descendant → List BMatch
  | _, [] => []
  | idx, node :: rest =>
      getBacklinkMatchesHelper node noteId [idx]
        ++ getBacklinkMatchesTop noteId (idx + 1) rest

/-- `getBacklinkMatches` (lines 110-116). -/
def getBacklinkMatches (nodes : List Descendant) (noteId : String) : List BMatch :=
  getBacklinkMatchesTop noteId 0 nodes

/-- `getBacklinks` (lines 95-108): one `Backlink` per note with at least one
match, in input order. -/
def getBacklinks : List Note → String → List Backlink
  | [], _ => []
  | note :: rest, noteId =>
      let matches' := getBacklinkMatches note.content noteId
      if matches'.length > 0 then
        ⟨note.id, note.title, matches'⟩ :: getBacklinks rest noteId
      else
        getBacklinks rest noteId

/-- The descent loop of the rewriter (lines 50-53): starting from
`draftState[path[0]]` (`none` models `undefined` for an out-of-range
index), each step reads `.children[pathNumber]`.  Reading `children` of
`undefined` or of a text node throws a `TypeError`, modelled as
`.error ()`; an element (even one with a stray `text` property) has a
children list, and an out-of-range child index yields `undefined`. -/
def descend : Option Descendant → List Nat → Except Unit (Option Descendant)
  | cur, [] => .ok cur
  | none, _ :: _ => .error ()
  | some (.text _), _ :: _ => .error ()
  | some (.element _ _ _ _ _ cs), i :: rest => descend (cs.get? i) rest

/-- The statement `linkNodeChild.text = newTitle` (line 69): on a text node
it replaces the text, on an element it installs a stray `text` property. -/
def jsSetText (t : String) : Descendant → Descendant
  | .text _ => .text t
  | .element ty ni nt itt _ cs => .element ty ni nt itt (some t) cs

/-- The mutation applied to a resolved link node (lines 64-71): set
`noteTitle` to the new title and, when `isTextTitle` is truthy, assign
`text = newTitle` on every child. -/
def patchLink (t : String) : Descendant → Descendant
  | .text s => .text s
  | .element ty ni _ itt et cs =>
      .element ty ni (some t) itt et
        (if itt == some true then cs.map (jsSetText t) else cs)

/-- Replace the element at one index of a list, leaving the rest shared. -/
def listModify (f : Descendant → Descendant) : List Descendant → Nat → List Descendant
  | [], _ => []
  | c :: rest, 0 => f c :: rest
  | c :: rest, i + 1 => c :: listModify f rest i

/-- Apply `f` to the node at a path inside a node, copying the spine. -/
def modifyNode (f : Descendant → Descendant) : List Nat → Descendant → Descendant
  | [], d => f d
  | _ :: _, .text s => .text s
  | i :: rest, .element ty ni nt itt et cs =>
      .element ty ni nt itt et (listModify (modifyNode f rest) cs i)

/-- Apply `f` to the node at a path inside a content list: the functional
reading of mutating the draft node that the descent loop reached.  (When
the rewriter patches, the descent has succeeded, so every step of the path
except the last goes through an in-range element child.) -/
def modifyAt (f : Descendant → Descendant) (l : List Descendant) : List Nat → List Descendant
  | [] => l
  | i :: rest => listModify (modifyNode f rest) l i

/-- Is the node an element whose tag is `NoteLink`?  The rewriter's guard
(lines 56-61) aborts the patch unless `Element.isElement(linkNode) &&
linkNode.type === ElementType.NoteLink`. -/
def isNoteLinkElement : Descendant → Bool
  | .element ElementType.noteLink _ _ _ _ _ => true
  | _ => false

/-- One `produce` call of the rewriter (lines 42-72): the patch for a single
`Match`.  Empty path: no-op.  Resolution throwing: the exception
propagates.  Resolved value not a note-link element (including
`undefined`): no-op.  Otherwise mutate the resolved node via `patchLink`. -/
def applyMatch (newTitle : String) (content : List Descendant) (m : BMatch) : Except Unit (List Descendant) :=
  match m.path with
  | [] => .ok content
  | i :: rest =>
    match descend (content.get? i) rest with
    | .error e => .error e
    | .ok none => .ok content
    | .ok (some node) =>
      if isNoteLinkElement node then
        .ok (modifyAt (patchLink newTitle) content (i :: rest))
      else
        .ok content

/-- The fold of the per-match patches over one backlink's matches (line
41): each patch starts from the content produced by the previous one. -/
def applyMatches (newTitle : String) : List Descendant → List BMatch → Except Unit (List Descendant)
  | content, [] => .ok content
  | content, m :: rest =>
    match applyMatch newTitle content m with
    | .error e => .error e
    | .ok c2 => applyMatches newTitle c2 rest

/-- The loop over backlinks (lines 30-80) building `upsertData`: a backlink
whose note is not found is skipped (with a logged diagnostic), otherwise
the patched content is pushed together with the backlink's id and title and
the acting user's id.  A thrown `TypeError` aborts the whole loop. -/
def buildUpsertData (uid : String) (notes : List Note) (newTitle : String) : List Backlink → Except Unit (List UpsertRecord)
  | [] => .ok []
  | b :: rest =>
    match notes.find? (fun note => note.id == b.id) with
    | none => buildUpsertData uid notes newTitle rest
    | some note =>
      match applyMatches newTitle note.content b.matches' with
      | .error e => .error e
      | .ok c2 =>
        match buildUpsertData uid notes newTitle rest with
        | .error e => .error e
        | .ok others => .ok (⟨b.id, b.title, uid, c2⟩ :: others)

/-- `updateBacklinks` (lines 24-86).  `user` is the authenticated user's id
(`none` when unauthenticated).  Result: `.ok none` means the function
returned early and the persistence collaborator was never invoked;
`.ok (some data)` means `upsert data` was invoked; `.error ()` means the
rewrite threw before reaching the upsert. -/
def updateBacklinks (user : Option String) (backlinks : List Backlink) (notes : List Note) (newTitle : String) : Except Unit (Option (List UpsertRecord)) :=
  match user with
  | none => .ok none
  | some uid =>
    match buildUpsertData uid notes newTitle backlinks with
    | .error e => .error e
    | .ok data => .ok (some data)

/-- Resolution of a path inside a node as the Finder's traversal walks it:
descend only through element nodes that are not text-like (no stray `text`
property), mirroring which nodes `getBacklinkMatchesHelper` recurses into. -/
def resolveNodeClean : Descendant → List Nat → Option Descendant
  | d, [] => some d
  | .element _ _ _ _ none cs, i :: rest =>
    match cs.get? i with
    | some c => resolveNodeClean c rest
    | none => none
  | _, _ :: _ => none

/-- Resolution of a path against a document's content list: the first index
addresses the top-level sequence, the rest descend per `resolveNodeClean`.
The empty path addresses no node. -/
def resolveDoc (nodes : List Descendant) : List Nat → Option Descendant
  | [] => none
  | i :: rest =>
    match nodes.get? i with
    | some d => resolveNodeClean d rest
    | none => none

/-- Children of a node (`[]` for a text leaf). -/
def childrenOf : Descendant → List Descendant
  | .text _ => []
  | .element _ _ _ _ _ cs => cs

/-- Variant tag of an element (`none` for a text leaf). -/
def typeOf : Descendant → Option ElementType
  | .text _ => none
  | .element ty _ _ _ _ _ => some ty

/-- The `noteId` field of an element (`none` for a text leaf). -/
def noteIdOf : Descendant → Option String
  | .text _ => none
  | .element _ ni _ _ _ _ => ni

/-- The `noteTitle` field of an element (`none` for a text leaf). -/
def noteTitleOf : Descendant → Option String
  | .text _ => none
  | .element _ _ nt _ _ _ => nt

/-- The `isTextTitle` field of an element (`none` for a text leaf). -/
def isTextTitleOf : Descendant → Option Bool
  | .text _ => none
  | .element _ _ _ itt _ _ => itt

/-- The stray `text` property of an element (`none` for a text leaf and for
well-formed elements). -/
def elementExtraText : Descendant → Option String
  | .text _ => none
  | .element _ _ _ _ et _ => et

/-- The part of a node the rewriter's path resolution and guard can
observe: text/element kind, the variant tag, and the children's shapes.
Patching preserves it, which is why a second rewrite pass resolves every
path exactly as the first one did. -/
inductive Shape where
  | text
  | element (ty : ElementType) (children : List Shape)

mutual

/-- Shape of a node. -/
def shapeOf : Descendant → Shape
  | .text _ => .text
  | .element ty _ _ _ _ cs => .element ty (shapeListOf cs)

/-- Shapes of a list of nodes. -/
def shapeListOf : List Descendant → List Shape
  | [] => []
  | c :: cs => shapeOf c :: shapeListOf cs

end

/-- Shape of an optional node (`undefined` has no shape). -/
def optShape (o : Option Descendant) : Option Shape :=
  o.map shapeOf

/-- The node addressed by a non-empty path resolves through the rewriter's
descent to a note-link element that `patchLink` leaves unchanged.  This is
the state of a match's path after its patch has been applied, and it is
what makes a second application of the patch a no-op. -/
def FixedAt (t : String) (c : List Descendant) : List Nat → Prop
  | [] => True
  | i :: rest =>
      ∃ node, descend (c.get? i) rest = .ok (some node) ∧
        isNoteLinkElement node = true ∧ patchLink t node = node

/- Concrete data of the spec's scenario (section 8, property 8). -/

/-- The link element of the concrete scenario. -/
def scenarioLink : Descendant :=
  .element .noteLink (some "b") (some "B") (some true) none [.text "B"]

/-- Document A of the concrete scenario. -/
def docA : Note :=
  ⟨"a", "Old", [.element .paragraph none none none none [scenarioLink]]⟩

/-- Document B of the concrete scenario. -/
def docB : Note := ⟨"b", "B", []⟩

/-- The node whose text the Finder flattens for a text node is the node
itself; for a clean element it is the concatenation over the children. -/
theorem nodeString_clean (ty : ElementType) (ni nt : Option String) (itt : Option Bool)
    (cs : List Descendant) :
    nodeString (.element ty ni nt itt none cs) = nodeStringList cs := rfl

/-- Setting the `text` property of any node makes its flattened text the
assigned string: a text node becomes that text, and an element with a stray
`text` property is read by `Node.string` through the `Text.isText` branch. -/
theorem nodeString_jsSetText (t : String) (c : Descendant) :
    nodeString (jsSetText t c) = t := by
  cases c <;> rfl

/-- C10: when the identity collaborator supplies no authenticated user,
`updateBacklinks` returns immediately: no patched documents are computed
and the persistence collaborator is never invoked, for every backlinks
collection, notes collection and new title. -/
theorem C10_no_user_no_upsert (backlinks : List Backlink) (notes : List Note)
    (newTitle : String) :
    updateBacklinks none backlinks notes newTitle = .ok none := rfl

/-- C6: the concrete scenario of the spec.  The Finder over documents A and
B with target "b" yields exactly one Backlink, for id "a", with the single
match of path `[0, 0]` and context "B"; the Rewriter with new title "Bee"
then upserts exactly one record for "a" whose content has the link's
`noteTitle` and its text child's text both equal to "Bee". -/
theorem C6_concrete_scenario :
    getBacklinks [docA, docB] "b" = [⟨"a", "Old", [⟨"B", [0, 0]⟩]⟩] ∧
    updateBacklinks (some "u") (getBacklinks [docA, docB] "b") [docA, docB] "Bee" =
      .ok (some [⟨"a", "Old", "u",
        [.element .paragraph none none none none
          [.element .noteLink (some "b") (some "Bee") (some true) none [.text "Bee"]]]⟩]) :=
  ⟨rfl, rfl⟩

/-- C2: contrary to the claim (and to the spec's defensive-no-op policy),
a Match whose path fails to resolve at an intermediate descent step does
not produce a no-op: with content `[text "x"]` and match path `[0, 0]`,
the descent reads `.children` of a text node and then indexes the
resulting `undefined`, throwing a TypeError that aborts the whole
`updateBacklinks` call, so no record is upserted at all.  The guards in
the code only cover an empty path and a final resolved value that is not a
note-link element. -/
theorem C2_descent_through_text_node_crashes :
    updateBacklinks (some "u") [⟨"a", "T", [⟨"ctx", [0, 0]⟩]⟩]
      [⟨"a", "T", [.text "x"]⟩] "New" = .error () := rfl

/-- C3 (counterexample): the mirrored-text law fails for a link with two
text children.  Patching with new title "Bee" rewrites each child's text to
"Bee", so the flattened text of the patched link is "BeeBee", not "Bee". -/
theorem C3_two_text_children_counterexample :
    applyMatch "Bee"
      [.element .paragraph none none none none
        [.element .noteLink (some "b") (some "B") (some true) none [.text "x", .text "y"]]]
      ⟨"xy", [0, 0]⟩ =
      .ok [.element .paragraph none none none none
        [.element .noteLink (some "b") (some "Bee") (some true) none
          [.text "Bee", .text "Bee"]]] ∧
    nodeString (.element .noteLink (some "b") (some "Bee") (some true) none
      [.text "Bee", .text "Bee"]) ≠ "Bee" :=
  ⟨rfl, by decide⟩

/-- C3 (amended): the mirrored-text law holds for a patched link node
(without a stray `text` property) whose `isTextTitle` is true and which has
exactly one child, of any kind: its flattened text after patching equals
the new title exactly.  With n children the flattened text is the new
title concatenated n times, so the law fails for two or more children. -/
theorem C3_mirrored_text_single_child (t : String) (ty : ElementType)
    (ni nt : Option String) (c : Descendant) :
    nodeString (patchLink t (.element ty ni nt (some true) none [c])) = t := by
  have h : nodeString (jsSetText t c) = t := nodeString_jsSetText t c
  simp [patchLink, nodeString, nodeStringList, h]

/-- C4 (counterexample): patching a mirrored-text link with an element
child does not leave the element child structurally as-is: the assignment
`linkNodeChild.text = newTitle` installs a `text` property on it.  Here the
paragraph child of the link gains `text = "Bee"` where it had no such
field. -/
theorem C4_element_child_gains_text_field :
    patchLink "Bee"
      (.element .noteLink (some "b") (some "B") (some true) none
        [.element .paragraph none none none none [.text "x"]]) =
      .element .noteLink (some "b") (some "Bee") (some true) none
        [.element .paragraph none none none (some "Bee") [.text "x"]] ∧
    elementExtraText (.element .paragraph none none none none [.text "x"]) = none ∧
    elementExtraText (.element .paragraph none none none (some "Bee") [.text "x"]) =
      some "Bee" :=
  ⟨rfl, rfl, rfl⟩

/-- C4 (amended): when the Rewriter patches a Link node with
title-mirrors-text true, every child has its `text` property set to the new
title: a text child's text is replaced, while an element child keeps its
variant tag, its link fields and its entire children list (so all deeper
descendants) unchanged, but gains a stray `text` property equal to the new
title rather than being left without any field change. -/
theorem C4_child_frame_effect (t : String) (ty : ElementType)
    (ni nt et2 : Option String) (cs : List Descendant) (k : Nat) (c : Descendant)
    (hk : cs.get? k = some c) :
    (childrenOf (patchLink t (.element ty ni nt (some true) et2 cs))).get? k =
      some (jsSetText t c) ∧
    childrenOf (jsSetText t c) = childrenOf c ∧
    typeOf (jsSetText t c) = typeOf c ∧
    noteIdOf (jsSetText t c) = noteIdOf c ∧
    noteTitleOf (jsSetText t c) = noteTitleOf c ∧
    isTextTitleOf (jsSetText t c) = isTextTitleOf c ∧
    (jsIsElement c = true → elementExtraText (jsSetText t c) = some t) ∧
    (∀ s, c = .text s → jsSetText t c = .text t) := by
  refine ⟨?_, ?_, ?_, ?_, ?_, ?_, ?_, ?_⟩
  · rw [List.get?_eq_getElem?] at hk
    simp [patchLink, childrenOf, List.getElem?_map, hk]
  all_goals cases c <;> simp [jsSetText, childrenOf, typeOf, noteIdOf, noteTitleOf,
    isTextTitleOf, elementExtraText, jsIsElement]

/-- Unfolding clean resolution one step into an element's child. -/
theorem resolveNodeClean_elem_cons {ty : ElementType} {ni nt : Option String}
    {itt : Option Bool} {cs : List Descendant} {i : Nat} {rest : List Nat} {c : Descendant}
    (h : cs.get? i = some c) :
    resolveNodeClean (.element ty ni nt itt none cs) (i :: rest) = resolveNodeClean c rest := by
  rw [resolveNodeClean, h]

/-- Clean resolution fails on an out-of-range child index. -/
theorem resolveNodeClean_elem_cons_none {ty : ElementType} {ni nt : Option String}
    {itt : Option Bool} {cs : List Descendant} {i : Nat} {rest : List Nat}
    (h : cs.get? i = none) :
    resolveNodeClean (.element ty ni nt itt none cs) (i :: rest) = none := by
  rw [resolveNodeClean, h]

/-- Unfolding document resolution at its first index. -/
theorem resolveDoc_cons {nodes : List Descendant} {i : Nat} {rest : List Nat} {d : Descendant}
    (h : nodes.get? i = some d) :
    resolveDoc nodes (i :: rest) = resolveNodeClean d rest := by
  rw [resolveDoc, h]

/-- Document resolution fails on an out-of-range top-level index. -/
theorem resolveDoc_cons_none {nodes : List Descendant} {i : Nat} {rest : List Nat}
    (h : nodes.get? i = none) :
    resolveDoc nodes (i :: rest) = none := by
  rw [resolveDoc, h]

/-- A child passing the Finder's match condition is an element node. -/
theorem isLinkTo_isElement (c : Descendant) (T : String) (h : isLinkTo c T = true) :
    jsIsElement c = true := by
  cases c with
  | text s => simp [isLinkTo] at h
  | element ty ni nt itt et cs => rfl

/-- A node reached by an index lookup is smaller than the list holding it. -/
theorem sizeOf_get?_lt (cs : List Descendant) (k : Nat) (c : Descendant)
    (h : cs.get? k = some c) : sizeOf c < sizeOf cs :=
  List.sizeOf_lt_of_mem (List.get?_mem h)

/-- The children list is smaller than the element holding it. -/
theorem sizeOf_children_lt (ty : ElementType) (ni nt : Option String) (itt : Option Bool)
    (et : Option String) (cs : List Descendant) :
    sizeOf cs < sizeOf (Descendant.element ty ni nt itt et cs) := by
  simp only [Descendant.element.sizeOf_spec]
  omega

/-- Every node has positive size. -/
theorem sizeOf_descendant_pos (d : Descendant) : 0 < sizeOf d := by
  cases d <;>
    simp only [Descendant.element.sizeOf_spec, Descendant.text.sizeOf_spec] <;> omega

/-- Where a match produced by the helper's loop comes from: either the loop
records it for a link child at some index, or it is returned by the
recursion into an element child at some index. -/
theorem helperChildren_mem_cases (ctx T : String) (pth : List Nat) :
    ∀ (cs : List Descendant) (idx : Nat) (M : BMatch),
      M ∈ helperChildren ctx T pth idx cs →
      (∃ k c, cs.get? k = some c ∧ isLinkTo c T = true ∧ M = ⟨ctx, pth ++ [idx + k]⟩) ∨
      (∃ k c, cs.get? k = some c ∧ M ∈ getBacklinkMatchesHelper c T (pth ++ [idx + k])) := by
  intro cs
  induction cs with
  | nil => intro idx M h; simp [helperChildren] at h
  | cons child rest ih =>
    intro idx M h
    rw [helperChildren] at h
    rcases List.mem_append.mp h with h | h
    · by_cases he : jsIsElement child
      · rw [if_pos he] at h
        rcases List.mem_append.mp h with h | h
        · by_cases hl : isLinkTo child T
          · rw [if_pos hl, List.mem_singleton] at h
            exact Or.inl ⟨0, child, rfl, hl, by simpa using h⟩
          · rw [if_neg hl] at h; exact absurd h (List.not_mem_nil M)
        · exact Or.inr ⟨0, child, rfl, by simpa using h⟩
      · rw [if_neg he] at h; exact absurd h (List.not_mem_nil M)
    · rcases ih (idx + 1) M h with ⟨k, c, hk, hl, hM⟩ | ⟨k, c, hk, hM⟩
      · refine Or.inl ⟨k + 1, c, hk, hl, ?_⟩
        have harith : idx + 1 + k = idx + (k + 1) := by omega
        rwa [harith] at hM
      · refine Or.inr ⟨k + 1, c, hk, ?_⟩
        have harith : idx + 1 + k = idx + (k + 1) := by omega
        rwa [harith] at hM

/-- Soundness of the helper: every match it returns addresses a link child
of a clean element node reachable from the visited node by descending only
through clean elements, and its context is the parent's flattened text. -/
theorem getBacklinkMatchesHelper_sound :
    ∀ (n : Nat) (node : Descendant), sizeOf node ≤ n →
      ∀ (T : String) (pth : List Nat) (M : BMatch),
        M ∈ getBacklinkMatchesHelper node T pth →
        ∃ q j par c, M.path = pth ++ q ++ [j] ∧ resolveNodeClean node q = some par ∧
          jsIsText par = false ∧ (childrenOf par).get? j = some c ∧
          isLinkTo c T = true ∧ M.context = nodeString par := by
  intro n
  induction n with
  | zero =>
    intro node hn
    have hpos := sizeOf_descendant_pos node
    omega
  | succ n ih =>
    intro node hn T pth M h
    cases node with
    | text s => simp [getBacklinkMatchesHelper] at h
    | element ty ni nt itt et cs =>
      cases et with
      | some e => simp [getBacklinkMatchesHelper] at h
      | none =>
        rw [getBacklinkMatchesHelper] at h
        rcases helperChildren_mem_cases _ _ _ cs 0 M h with ⟨k, c, hk, hl, hM⟩ | ⟨k, c, hk, hM⟩
        · refine ⟨[], k, .element ty ni nt itt none cs, c, ?_, rfl, rfl, hk, hl, ?_⟩
          · rw [hM]; simp
          · rw [hM]
            exact (nodeString_clean ty ni nt itt cs).symm
        · have hc : sizeOf c ≤ n := by
            have h1 := sizeOf_get?_lt cs k c hk
            have h2 := sizeOf_children_lt ty ni nt itt none cs
            omega
          have h0 : (0 : Nat) + k = k := by omega
          rw [h0] at hM
          rcases ih c hc T (pth ++ [k]) M hM with ⟨q, j, par, c2, hp, hres, htext, hch, hl2, hctx⟩
          refine ⟨k :: q, j, par, c2, ?_, ?_, htext, hch, hl2, hctx⟩
          · rw [hp]; simp
          · rw [resolveNodeClean_elem_cons hk]; exact hres

/-- Soundness of the top-level loop: every match comes from the helper run
on some top-level node at its index. -/
theorem getBacklinkMatchesTop_sound (T : String) :
    ∀ (nodes : List Descendant) (idx : Nat) (M : BMatch),
      M ∈ getBacklinkMatchesTop T idx nodes →
      ∃ k node, nodes.get? k = some node ∧
        M ∈ getBacklinkMatchesHelper node T [idx + k] := by
  intro nodes
  induction nodes with
  | nil => intro idx M h; simp [getBacklinkMatchesTop] at h
  | cons node rest ih =>
    intro idx M h
    rw [getBacklinkMatchesTop] at h
    rcases List.mem_append.mp h with h | h
    · exact ⟨0, node, rfl, by simpa using h⟩
    · rcases ih (idx + 1) M h with ⟨k, node2, hk, hM⟩
      refine ⟨k + 1, node2, hk, ?_⟩
      have harith : idx + 1 + k = idx + (k + 1) := by omega
      rwa [harith] at hM

/-- Composing clean resolution over an appended path. -/
theorem resolveNodeClean_append (q : List Nat) :
    ∀ (d : Descendant) (r : List Nat),
      resolveNodeClean d (q ++ r) = (resolveNodeClean d q).bind (fun x => resolveNodeClean x r) := by
  induction q with
  | nil =>
    intro d r
    cases d with
    | text s => rfl
    | element ty ni nt itt et cs => cases et <;> rfl
  | cons i q ih =>
    intro d r
    cases d with
    | text s => rfl
    | element ty ni nt itt et cs =>
      cases et with
      | some e => rfl
      | none =>
        have hsplit : (i :: q) ++ r = i :: (q ++ r) := rfl
        rw [hsplit]
        cases hk : cs.get? i with
        | none =>
          rw [resolveNodeClean_elem_cons_none hk, resolveNodeClean_elem_cons_none hk]
          rfl
        | some c =>
          rw [resolveNodeClean_elem_cons hk, resolveNodeClean_elem_cons hk, ih c r]

/-- Resolving one final step out of a clean element reads its children. -/
theorem resolveNodeClean_singleton (par : Descendant) (j : Nat)
    (htext : jsIsText par = false) :
    resolveNodeClean par [j] = (childrenOf par).get? j := by
  cases par with
  | text s => simp [jsIsText] at htext
  | element ty ni nt itt et cs =>
    cases et with
    | some e => simp [jsIsText] at htext
    | none =>
      rw [resolveNodeClean, childrenOf]
      cases hk : cs.get? j <;> simp [resolveNodeClean, hk]

/-- Soundness of the Finder's match list for one document: every match path
splits as a non-empty parent path plus a child index; the parent path
resolves to a clean element whose indexed child is a matching link, the
context is the parent's flattened text, and the whole match path resolves
to the matched link node. -/
theorem getBacklinkMatches_sound (nodes : List Descendant) (T : String) (M : BMatch)
    (h : M ∈ getBacklinkMatches nodes T) :
    ∃ p j par c, M.path = p ++ [j] ∧ p ≠ [] ∧ resolveDoc nodes p = some par ∧
      jsIsText par = false ∧ (childrenOf par).get? j = some c ∧ isLinkTo c T = true ∧
      M.context = nodeString par ∧ resolveDoc nodes M.path = some c := by
  rcases getBacklinkMatchesTop_sound T nodes 0 M h with ⟨k, node, hk, hM⟩
  have h0 : (0 : Nat) + k = k := by omega
  rw [h0] at hM
  rcases getBacklinkMatchesHelper_sound (sizeOf node) node le_rfl T [k] M hM with
    ⟨q, j, par, c, hp, hres, htext, hch, hl, hctx⟩
  refine ⟨k :: q, j, par, c, by simpa using hp, by simp, ?_, htext, hch, hl, hctx, ?_⟩
  · rw [resolveDoc_cons hk]; exact hres
  · rw [hp]
    have hsplit : ([k] ++ q ++ [j] : List Nat) = k :: (q ++ [j]) := by simp
    rw [hsplit, resolveDoc_cons hk, resolveNodeClean_append q node [j], hres,
      Option.some_bind, resolveNodeClean_singleton par j htext]
    exact hch

/-- Completeness of the helper's loop for a direct link child. -/
theorem helperChildren_complete_direct (ctx T : String) (pth : List Nat) :
    ∀ (cs : List Descendant) (idx k : Nat) (c : Descendant),
      cs.get? k = some c → isLinkTo c T = true →
      (⟨ctx, pth ++ [idx + k]⟩ : BMatch) ∈ helperChildren ctx T pth idx cs := by
  intro cs
  induction cs with
  | nil => intro idx k c hk; simp at hk
  | cons child rest ih =>
    intro idx k c hk hl
    rw [helperChildren]
    cases k with
    | zero =>
      have hc : child = c := by simpa using hk
      subst hc
      rw [if_pos (isLinkTo_isElement child T hl), if_pos hl]
      simp
    | succ k =>
      have hmem := ih (idx + 1) k c (by simpa using hk) hl
      have harith : idx + 1 + k = idx + (k + 1) := by omega
      rw [harith] at hmem
      exact List.mem_append.mpr (Or.inr hmem)

/-- Completeness of the helper's loop for matches inside an element child. -/
theorem helperChildren_complete_inner (ctx T : String) (pth : List Nat) :
    ∀ (cs : List Descendant) (idx k : Nat) (c : Descendant) (M : BMatch),
      cs.get? k = some c → M ∈ getBacklinkMatchesHelper c T (pth ++ [idx + k]) →
      M ∈ helperChildren ctx T pth idx cs := by
  intro cs
  induction cs with
  | nil => intro idx k c M hk; simp at hk
  | cons child rest ih =>
    intro idx k c M hk hM
    rw [helperChildren]
    cases k with
    | zero =>
      have hc : child = c := by simpa using hk
      subst hc
      by_cases he : jsIsElement child
      · rw [if_pos he]
        refine List.mem_append.mpr (Or.inl (List.mem_append.mpr (Or.inr ?_)))
        simpa using hM
      · cases child with
        | text s => simp [getBacklinkMatchesHelper] at hM
        | element ty ni nt itt et cs2 => simp [jsIsElement] at he
    | succ k =>
      have harith : idx + (k + 1) = idx + 1 + k := by omega
      rw [harith] at hM
      exact List.mem_append.mpr (Or.inr (ih (idx + 1) k c M (by simpa using hk) hM))

/-- Completeness of the helper: a link child of any clean element reached
from the visited node by clean descent is matched, with the parent's
flattened text as context. -/
theorem getBacklinkMatchesHelper_complete (T : String) :
    ∀ (q : List Nat) (node : Descendant) (pth : List Nat) (par : Descendant)
      (j : Nat) (c : Descendant),
      resolveNodeClean node q = some par → jsIsText par = false →
      (childrenOf par).get? j = some c → isLinkTo c T = true →
      (⟨nodeString par, pth ++ q ++ [j]⟩ : BMatch) ∈ getBacklinkMatchesHelper node T pth := by
  intro q
  induction q with
  | nil =>
    intro node pth par j c hres htext hch hl
    have hpar : node = par := by simpa [resolveNodeClean] using hres
    subst hpar
    cases node with
    | text s => simp [jsIsText] at htext
    | element ty ni nt itt et cs =>
      cases et with
      | some e => simp [jsIsText] at htext
      | none =>
        rw [getBacklinkMatchesHelper]
        have hmem := helperChildren_complete_direct (nodeStringList cs) T pth cs 0 j c
          (by simpa [childrenOf] using hch) hl
        simpa using hmem
  | cons i q ih =>
    intro node pth par j c hres htext hch hl
    cases node with
    | text s => simp [resolveNodeClean] at hres
    | element ty ni nt itt et cs =>
      cases et with
      | some e => simp [resolveNodeClean] at hres
      | none =>
        rw [getBacklinkMatchesHelper]
        rw [resolveNodeClean] at hres
        cases hk : cs.get? i with
        | none => rw [hk] at hres; simp at hres
        | some c0 =>
          rw [hk] at hres
          have hmem := ih c0 (pth ++ [i]) par j c hres htext hch hl
          have hmem2 := helperChildren_complete_inner (nodeStringList cs) T pth cs 0 i c0
            ⟨nodeString par, (pth ++ [i]) ++ q ++ [j]⟩ (by simpa using hk) (by simpa using hmem)
          have heq : (pth ++ [i]) ++ q ++ [j] = pth ++ (i :: q) ++ [j] := by simp
          rwa [heq] at hmem2

/-- Completeness of the top-level loop. -/
theorem getBacklinkMatchesTop_complete (T : String) :
    ∀ (nodes : List Descendant) (idx k : Nat) (node : Descendant) (M : BMatch),
      nodes.get? k = some node → M ∈ getBacklinkMatchesHelper node T [idx + k] →
      M ∈ getBacklinkMatchesTop T idx nodes := by
  intro nodes
  induction nodes with
  | nil => intro idx k node M hk; simp at hk
  | cons node0 rest ih =>
    intro idx k node M hk hM
    rw [getBacklinkMatchesTop]
    cases k with
    | zero =>
      have hc : node0 = node := by simpa using hk
      subst hc
      exact List.mem_append.mpr (Or.inl (by simpa using hM))
    | succ k =>
      have harith : idx + (k + 1) = idx + 1 + k := by omega
      rw [harith] at hM
      exact List.mem_append.mpr (Or.inr (ih (idx + 1) k node M (by simpa using hk) hM))

/-- Completeness of the Finder's match list for one document: any link node
sitting at a non-top-level position reachable by clean descent is matched,
with its parent's flattened text as context. -/
theorem getBacklinkMatches_complete (nodes : List Descendant) (T : String)
    (p : List Nat) (j : Nat) (c : Descendant)
    (hres : resolveDoc nodes (p ++ [j]) = some c) (hp : p ≠ [])
    (hl : isLinkTo c T = true) :
    ∃ par, resolveDoc nodes p = some par ∧
      (⟨nodeString par, p ++ [j]⟩ : BMatch) ∈ getBacklinkMatches nodes T := by
  cases p with
  | nil => exact absurd rfl hp
  | cons i q =>
    have hsplit : (i :: q) ++ [j] = i :: (q ++ [j]) := rfl
    rw [hsplit] at hres
    cases hk : nodes.get? i with
    | none => rw [resolveDoc_cons_none hk] at hres; simp at hres
    | some node =>
      rw [resolveDoc_cons hk, resolveNodeClean_append q node [j]] at hres
      cases hq : resolveNodeClean node q with
      | none => rw [hq] at hres; simp at hres
      | some par =>
        rw [hq, Option.some_bind] at hres
        have htext : jsIsText par = false := by
          cases par with
          | text s => simp [resolveNodeClean] at hres
          | element ty ni nt itt et cs =>
            cases et with
            | some e => simp [resolveNodeClean] at hres
            | none => rfl
        have hch : (childrenOf par).get? j = some c := by
          rw [← resolveNodeClean_singleton par j htext]
          exact hres
        have hmem := getBacklinkMatchesHelper_complete T q node [i] par j c hq htext hch hl
        have hmem2 := getBacklinkMatchesTop_complete T nodes 0 i node
          ⟨nodeString par, [i] ++ q ++ [j]⟩ hk (by simpa using hmem)
        refine ⟨par, ?_, ?_⟩
        · rw [resolveDoc_cons hk]; exact hq
        · simpa [getBacklinkMatches] using hmem2

/-- A document one of whose matches is witnessed contributes a backlink
carrying its id, title and full match list. -/
theorem getBacklinks_mem_of_matches (T : String) :
    ∀ (notes : List Note) (note : Note) (M : BMatch),
      note ∈ notes → M ∈ getBacklinkMatches note.content T →
      ∃ b, b ∈ getBacklinks notes T ∧ b.id = note.id ∧ b.title = note.title ∧
        b.matches' = getBacklinkMatches note.content T := by
  intro notes
  induction notes with
  | nil => intro note M hmem; simp at hmem
  | cons n0 rest ih =>
    intro note M hmem hM
    rw [getBacklinks]
    rcases List.mem_cons.mp hmem with heq | hmem2
    · subst heq
      have hpos : (getBacklinkMatches note.content T).length > 0 :=
        List.length_pos.mpr (List.ne_nil_of_mem hM)
      rw [if_pos hpos]
      exact ⟨⟨note.id, note.title, getBacklinkMatches note.content T⟩,
        List.mem_cons_self _ _, rfl, rfl, rfl⟩
    · rcases ih note M hmem2 hM with ⟨b, hb, hid, htitle, hmatches⟩
      by_cases hpos : (getBacklinkMatches n0.content T).length > 0
      · rw [if_pos hpos]
        exact ⟨b, List.mem_cons_of_mem _ hb, hid, htitle, hmatches⟩
      · rw [if_neg hpos]
        exact ⟨b, hb, hid, htitle, hmatches⟩

/-- Witness for C4 (amended) at the counterexample's input. -/
theorem C4_child_frame_effect_witness :
    (childrenOf (patchLink "Bee"
      (.element .noteLink (some "b") (some "B") (some true) none
        [.element .paragraph none none none none [.text "x"]]))).get? 0 =
      some (jsSetText "Bee" (.element .paragraph none none none none [.text "x"])) ∧
    childrenOf (jsSetText "Bee" (.element .paragraph none none none none [.text "x"])) =
      childrenOf (.element .paragraph none none none none [.text "x"]) :=
  ⟨(C4_child_frame_effect "Bee" .noteLink (some "b") (some "B") none
      [.element .paragraph none none none none [.text "x"]] 0
      (.element .paragraph none none none none [.text "x"]) rfl).1,
   (C4_child_frame_effect "Bee" .noteLink (some "b") (some "B") none
      [.element .paragraph none none none none [.text "x"]] 0
      (.element .paragraph none none none none [.text "x"]) rfl).2.1⟩


/-- C1 (amended): depth-two completeness and no-false-positives of the
Finder.  For every document in the collection, any link node with target T
and non-empty flattened text sitting at a position of depth at least two
(a child of a node reached by clean descent) yields a Backlink for that
document with a Match whose Path resolves to that link node; conversely,
if no Backlink for the document is in the result, no such link node exists
at any depth-two-or-deeper position.  Link nodes at the top level of the
content sequence are not found, which is what the counterexample exhibits
against the original claim. -/
theorem C1_finder_depth2_completeness (notes : List Note) (T : String) (note : Note)
    (hmem : note ∈ notes) :
    (∀ p j c, resolveDoc note.content (p ++ [j]) = some c → p ≠ [] →
      isLinkTo c T = true →
      ∃ b, b ∈ getBacklinks notes T ∧ b.id = note.id ∧
        ∃ m, m ∈ b.matches' ∧ m.path = p ++ [j] ∧
          resolveDoc note.content m.path = some c) ∧
    ((∀ b, b ∈ getBacklinks notes T → b.id ≠ note.id) →
      ∀ p j c, resolveDoc note.content (p ++ [j]) = some c → p ≠ [] →
        isLinkTo c T = false) := by
  constructor
  · intro p j c hres hp hl
    rcases getBacklinkMatches_complete note.content T p j c hres hp hl with ⟨par, hpar, hmatch⟩
    rcases getBacklinks_mem_of_matches T notes note _ hmem hmatch with ⟨b, hb, hid, _, hms⟩
    refine ⟨b, hb, hid, ⟨nodeString par, p ++ [j]⟩, ?_, rfl, hres⟩
    rw [hms]; exact hmatch
  · intro habs p j c hres hp
    cases hl : isLinkTo c T
    · rfl
    · exfalso
      rcases getBacklinkMatches_complete note.content T p j c hres hp hl with ⟨par, hpar, hmatch⟩
      rcases getBacklinks_mem_of_matches T notes note _ hmem hmatch with ⟨b, hb, hid, _, _⟩
      exact habs b hb hid

/-- Witness for C1 (amended) at the concrete scenario. -/
theorem C1_finder_depth2_completeness_witness :
    ∃ b, b ∈ getBacklinks [docA, docB] "b" ∧ b.id = docA.id ∧
      ∃ m, m ∈ b.matches' ∧ m.path = [0] ++ [0] ∧
        resolveDoc docA.content m.path = some scenarioLink :=
  (C1_finder_depth2_completeness [docA, docB] "b" docA (by simp)).1 [0] 0 scenarioLink rfl
    (by simp) rfl

/-- C1 (counterexample): a Link node at the top level of the content
sequence is never matched.  The document below consists of exactly one
top-level link node with target "b" and non-empty flattened text, yet the
Finder returns no Backlink at all for it, contradicting both directions of
the claim as stated. -/
theorem C1_top_level_link_missed :
    isLinkTo scenarioLink "b" = true ∧
    resolveDoc [scenarioLink] [0] = some scenarioLink ∧
    getBacklinks [⟨"a", "Old", [scenarioLink]⟩] "b" = [] :=
  ⟨rfl, rfl, rfl⟩

/-- C5 (amended): every Path recorded in a Match is non-empty, and in fact
always has length at least two (the parent's non-empty traversal path plus
the matched child's index); some input attains exactly length two, which
is the true minimum.  The original claim's minimum of one is refuted by
the separate counterexample theorem. -/
theorem C5_match_path_min_length_two :
    (∀ (nodes : List Descendant) (T : String) (M : BMatch),
      M ∈ getBacklinkMatches nodes T → M.path ≠ [] ∧ 2 ≤ M.path.length) ∧
    (∃ (nodes : List Descendant) (T : String) (M : BMatch),
      M ∈ getBacklinkMatches nodes T ∧ M.path.length = 2) := by
  constructor
  · intro nodes T M h
    rcases getBacklinkMatches_sound nodes T M h with ⟨p, j, par, c, hp, hpne, _⟩
    have hlen : M.path.length = p.length + 1 := by rw [hp]; simp
    have hppos : 0 < p.length := List.length_pos.mpr hpne
    constructor
    · intro hnil; rw [hnil] at hlen; simp at hlen
    · omega
  · exact ⟨docA.content, "b", ⟨"B", [0, 0]⟩, by decide, rfl⟩

/-- C5 (counterexample): contrary to the claim, no input yields a recorded
match whose Path is a single index: a match path always has length at
least two. -/
theorem C5_no_length_one_match_path :
    ¬ ∃ (nodes : List Descendant) (T : String) (M : BMatch),
        M ∈ getBacklinkMatches nodes T ∧ M.path.length = 1 := by
  rintro ⟨nodes, T, M, hM, hlen⟩
  rcases getBacklinkMatches_sound nodes T M hM with ⟨p, j, par, c, hp, hpne, _⟩
  have h1 : M.path.length = p.length + 1 := by rw [hp]; simp
  have h2 : 0 < p.length := List.length_pos.mpr hpne
  omega

/-- C7: for every Match recorded by the Finder, the context equals the
flattened text of the immediate parent node of the matched Link node (the
node being visited when the child matched, not the link itself), computed
at search time, and the match path equals the traversal path to that
parent extended by the matching child's index. -/
theorem C7_context_is_parent_flattened_text (nodes : List Descendant) (T : String)
    (M : BMatch) (h : M ∈ getBacklinkMatches nodes T) :
    ∃ p j par, M.path = p ++ [j] ∧ resolveDoc nodes p = some par ∧
      M.context = nodeString par ∧
      ∃ c, (childrenOf par).get? j = some c ∧ isLinkTo c T = true ∧
        resolveDoc nodes M.path = some c := by
  rcases getBacklinkMatches_sound nodes T M h with
    ⟨p, j, par, c, hp, hpne, hres, htext, hch, hl, hctx, hfull⟩
  exact ⟨p, j, par, hp, hres, hctx, c, hch, hl, hfull⟩

/-- Witness for C7 at the concrete scenario. -/
theorem C7_context_is_parent_flattened_text_witness :
    ∃ p j par, (⟨"B", [0, 0]⟩ : BMatch).path = p ++ [j] ∧
      resolveDoc docA.content p = some par ∧
      (⟨"B", [0, 0]⟩ : BMatch).context = nodeString par ∧
      ∃ c, (childrenOf par).get? j = some c ∧ isLinkTo c "b" = true ∧
        resolveDoc docA.content (⟨"B", [0, 0]⟩ : BMatch).path = some c :=
  C7_context_is_parent_flattened_text docA.content "b" ⟨"B", [0, 0]⟩ (by decide)


/-- Every backlink produced by the Finder corresponds to a note of the
collection and carries that note's id, title and full match list. -/
theorem getBacklinks_mem_elim (T : String) :
    ∀ (notes : List Note) (b : Backlink), b ∈ getBacklinks notes T →
      ∃ note, note ∈ notes ∧ b.id = note.id ∧ b.title = note.title ∧
        b.matches' = getBacklinkMatches note.content T := by
  intro notes
  induction notes with
  | nil => intro b hb; simp [getBacklinks] at hb
  | cons n0 rest ih =>
    intro b hb
    rw [getBacklinks] at hb
    by_cases hpos : (getBacklinkMatches n0.content T).length > 0
    · rw [if_pos hpos] at hb
      rcases List.mem_cons.mp hb with heq | hmem
      · subst heq; exact ⟨n0, List.mem_cons_self _ _, rfl, rfl, rfl⟩
      · rcases ih b hmem with ⟨note, hn, h1, h2, h3⟩
        exact ⟨note, List.mem_cons_of_mem _ hn, h1, h2, h3⟩
    · rw [if_neg hpos] at hb
      rcases ih b hb with ⟨note, hn, h1, h2, h3⟩
      exact ⟨note, List.mem_cons_of_mem _ hn, h1, h2, h3⟩

/-- The ids of the Finder's backlinks form a sublist of the notes' ids. -/
theorem getBacklinks_ids_sublist (T : String) :
    ∀ notes : List Note,
      List.Sublist ((getBacklinks notes T).map Backlink.id) (notes.map Note.id) := by
  intro notes
  induction notes with
  | nil => simp [getBacklinks]
  | cons n0 rest ih =>
    rw [getBacklinks]
    by_cases hpos : (getBacklinkMatches n0.content T).length > 0
    · rw [if_pos hpos, List.map_cons, List.map_cons]
      exact List.Sublist.cons₂ _ ih
    · rw [if_neg hpos, List.map_cons]
      exact List.Sublist.cons _ ih

/-- Every record of the rewriter's batch carries the id of one of the
processed backlinks. -/
theorem buildUpsertData_ids (uid newTitle : String) (notes : List Note) :
    ∀ (bls : List Backlink) (out : List UpsertRecord),
      buildUpsertData uid notes newTitle bls = .ok out →
      ∀ r, r ∈ out → r.id ∈ bls.map Backlink.id := by
  intro bls
  induction bls with
  | nil =>
    intro out hrun r hr
    rw [buildUpsertData] at hrun
    cases hrun
    simp at hr
  | cons b0 rest ih =>
    intro out hrun r hr
    cases hfind0 : notes.find? (fun note => note.id == b0.id) with
    | none =>
      simp only [buildUpsertData, hfind0] at hrun
      simp only [List.map_cons]
      exact List.mem_cons_of_mem _ (ih out hrun r hr)
    | some note0 =>
      cases happ : applyMatches newTitle note0.content b0.matches' with
      | error e =>
        simp only [buildUpsertData, hfind0, happ] at hrun
        exact Except.noConfusion hrun
      | ok c0 =>
        cases hrest : buildUpsertData uid notes newTitle rest with
        | error e =>
          simp only [buildUpsertData, hfind0, happ, hrest] at hrun
          exact Except.noConfusion hrun
        | ok outr =>
          simp only [buildUpsertData, hfind0, happ, hrest, Except.ok.injEq] at hrun
          subst hrun
          rcases List.mem_cons.mp hr with heq | hmem
          · subst heq; simp
          · simp only [List.map_cons]
            exact List.mem_cons_of_mem _ (ih outr hrest r hmem)

/-- A processed backlink whose note is found contributes exactly one record
to the rewriter's batch — carrying the backlink's id and title, the acting
user's id and the patched content — provided the backlink ids are
pairwise distinct. -/
theorem buildUpsertData_filter (uid newTitle : String) (notes : List Note) :
    ∀ (bls : List Backlink) (out : List UpsertRecord),
      (bls.map Backlink.id).Nodup →
      buildUpsertData uid notes newTitle bls = .ok out →
      ∀ b, b ∈ bls → ∀ note, notes.find? (fun n => n.id == b.id) = some note →
        ∃ c2, applyMatches newTitle note.content b.matches' = .ok c2 ∧
          out.filter (fun r => r.id == b.id) = [⟨b.id, b.title, uid, c2⟩] := by
  intro bls
  induction bls with
  | nil => intro out hnd hrun b hb; simp at hb
  | cons b0 rest ih =>
    intro out hnd hrun b hb note hfind
    have hnd_tail : (rest.map Backlink.id).Nodup := by
      simp only [List.map_cons, List.nodup_cons] at hnd; exact hnd.2
    have hnd_head : b0.id ∉ rest.map Backlink.id := by
      simp only [List.map_cons, List.nodup_cons] at hnd; exact hnd.1
    cases hfind0 : notes.find? (fun n => n.id == b0.id) with
    | none =>
      simp only [buildUpsertData, hfind0] at hrun
      rcases List.mem_cons.mp hb with heq | hmem
      · subst heq; rw [hfind0] at hfind; exact Option.noConfusion hfind
      · exact ih out hnd_tail hrun b hmem note hfind
    | some note0 =>
      cases happ : applyMatches newTitle note0.content b0.matches' with
      | error e =>
        simp only [buildUpsertData, hfind0, happ] at hrun
        exact Except.noConfusion hrun
      | ok c0 =>
        cases hrest : buildUpsertData uid notes newTitle rest with
        | error e =>
          simp only [buildUpsertData, hfind0, happ, hrest] at hrun
          exact Except.noConfusion hrun
        | ok outr =>
          simp only [buildUpsertData, hfind0, happ, hrest, Except.ok.injEq] at hrun
          subst hrun
          rcases List.mem_cons.mp hb with heq | hmem
          · subst heq
            have hnote : note0 = note := by
              rw [hfind0] at hfind; exact Option.some.inj hfind
            subst hnote
            refine ⟨c0, happ, ?_⟩
            have hempty : outr.filter (fun r => r.id == b.id) = [] := by
              rw [List.filter_eq_nil_iff]
              intro r hr hbeq
              have hid := buildUpsertData_ids uid newTitle notes rest outr hrest r hr
              have hbeq2 : r.id = b.id := by simpa using hbeq
              rw [hbeq2] at hid
              exact hnd_head hid
            simp [List.filter_cons, hempty]
          · have hne : b0.id ≠ b.id := by
              intro heq2
              exact hnd_head (heq2 ▸ List.mem_map_of_mem Backlink.id hmem)
            rcases ih outr hnd_tail hrest b hmem note hfind with ⟨c2, happ2, hfil⟩
            refine ⟨c2, happ2, ?_⟩
            simpa [List.filter_cons, beq_eq_false_iff_ne.mpr hne] using hfil

/-- C8: for every Backlink whose document is found in the supplied notes
collection, the Rewriter's batch contains exactly one record for it,
carrying the document's identifier, the document's original stored title
(not the new title being written into link nodes of other documents), the
acting user's id, and the fully patched content.  Stated for the Finder's
backlinks over a collection with distinct ids, exactly as the pipeline
invokes the Rewriter. -/
theorem C8_one_record_with_original_title (uid T newTitle : String) (notes : List Note)
    (out : List UpsertRecord) (hN : (notes.map Note.id).Nodup)
    (hrun : updateBacklinks (some uid) (getBacklinks notes T) notes newTitle =
      .ok (some out))
    (b : Backlink) (hb : b ∈ getBacklinks notes T)
    (note : Note) (hfind : notes.find? (fun n => n.id == b.id) = some note) :
    ∃ c2, applyMatches newTitle note.content b.matches' = .ok c2 ∧
      out.filter (fun r => r.id == b.id) = [⟨note.id, note.title, uid, c2⟩] := by
  cases hbuild : buildUpsertData uid notes newTitle (getBacklinks notes T) with
  | error e =>
    simp only [updateBacklinks, hbuild] at hrun
    exact Except.noConfusion hrun
  | ok data =>
    simp only [updateBacklinks, hbuild, Except.ok.injEq, Option.some.injEq] at hrun
    subst hrun
    have hnodup : ((getBacklinks notes T).map Backlink.id).Nodup :=
      List.Nodup.sublist (getBacklinks_ids_sublist T notes) hN
    rcases buildUpsertData_filter uid newTitle notes (getBacklinks notes T) data hnodup
      hbuild b hb note hfind with ⟨c2, happ, hfil⟩
    rcases getBacklinks_mem_elim T notes b hb with ⟨note2, hn2, hid2, htitle2, _⟩
    have hnotemem : note ∈ notes := List.mem_of_find?_eq_some hfind
    have hid : note.id = b.id := by
      have hpa := List.find?_some hfind
      simpa using hpa
    have hideq : note2.id = note.id := by rw [← hid2]; exact hid.symm
    have hnoteeq : note2 = note := List.inj_on_of_nodup_map hN hn2 hnotemem hideq
    have hbid : b.id = note.id := hid.symm
    have hbtitle : b.title = note.title := by rw [htitle2, hnoteeq]
    refine ⟨c2, happ, ?_⟩
    rw [hfil, hbid, hbtitle]

/-- Witness for C8 at the concrete scenario. -/
theorem C8_one_record_with_original_title_witness :
    ∃ c2, applyMatches "Bee" docA.content
        (⟨"a", "Old", [⟨"B", [0, 0]⟩]⟩ : Backlink).matches' = .ok c2 ∧
      ([⟨"a", "Old", "u",
        [.element .paragraph none none none none
          [.element .noteLink (some "b") (some "Bee") (some true) none [.text "Bee"]]]⟩] :
        List UpsertRecord).filter
          (fun r => r.id == (⟨"a", "Old", [⟨"B", [0, 0]⟩]⟩ : Backlink).id) =
        [⟨docA.id, docA.title, "u", c2⟩] :=
  C8_one_record_with_original_title "u" "b" "Bee" [docA, docB]
    [⟨"a", "Old", "u",
      [.element .paragraph none none none none
        [.element .noteLink (some "b") (some "Bee") (some true) none [.text "Bee"]]]⟩]
    (by decide) rfl ⟨"a", "Old", [⟨"B", [0, 0]⟩]⟩ (by decide) docA rfl


/-- Shapes of a list are the mapped shapes. -/
theorem shapeListOf_eq_map : ∀ cs : List Descendant, shapeListOf cs = cs.map shapeOf := by
  intro cs
  induction cs with
  | nil => rfl
  | cons c cs ih => rw [shapeListOf, List.map_cons, ih]

/-- Setting the `text` property does not change a node's shape. -/
theorem shapeOf_jsSetText (t : String) (c : Descendant) :
    shapeOf (jsSetText t c) = shapeOf c := by
  cases c <;> rfl

/-- Setting the `text` property across a list preserves the shapes. -/
theorem shapeListOf_map_jsSetText (t : String) :
    ∀ cs : List Descendant, shapeListOf (cs.map (jsSetText t)) = shapeListOf cs := by
  intro cs
  induction cs with
  | nil => rfl
  | cons c cs ih =>
    rw [List.map_cons, shapeListOf, shapeListOf, ih, shapeOf_jsSetText]

/-- Patching a link node does not change its shape. -/
theorem shapeOf_patchLink (t : String) (d : Descendant) :
    shapeOf (patchLink t d) = shapeOf d := by
  cases d with
  | text s => rfl
  | element ty ni nt itt et cs =>
    rw [patchLink]
    by_cases h : itt == some true
    · rw [if_pos h, shapeOf, shapeOf, shapeListOf_map_jsSetText]
    · rw [if_neg h]
      rfl

/-- A shape-preserving modification at one index preserves the shapes. -/
theorem shapeListOf_listModify (f : Descendant → Descendant)
    (hf : ∀ d, shapeOf (f d) = shapeOf d) :
    ∀ (l : List Descendant) (i : Nat), shapeListOf (listModify f l i) = shapeListOf l := by
  intro l
  induction l with
  | nil => intro i; rfl
  | cons c rest ih =>
    intro i
    cases i with
    | zero => rw [listModify, shapeListOf, shapeListOf, hf]
    | succ i => rw [listModify, shapeListOf, shapeListOf, ih]

/-- A shape-preserving modification along a path preserves a node's shape. -/
theorem shapeOf_modifyNode (f : Descendant → Descendant)
    (hf : ∀ d, shapeOf (f d) = shapeOf d) :
    ∀ (p : List Nat) (d : Descendant), shapeOf (modifyNode f p d) = shapeOf d := by
  intro p
  induction p with
  | nil => intro d; rw [modifyNode]; exact hf d
  | cons i rest ih =>
    intro d
    cases d with
    | text s => rfl
    | element ty ni nt itt et cs =>
      rw [modifyNode, shapeOf, shapeOf, shapeListOf_listModify _ ih]

/-- A shape-preserving modification at a path preserves a content list's
shapes. -/
theorem shapeListOf_modifyAt (f : Descendant → Descendant)
    (hf : ∀ d, shapeOf (f d) = shapeOf d) (l : List Descendant) (p : List Nat) :
    shapeListOf (modifyAt f l p) = shapeListOf l := by
  cases p with
  | nil => rfl
  | cons i rest =>
    rw [modifyAt]
    exact shapeListOf_listModify _ (shapeOf_modifyNode f hf rest) l i

/-- One applied patch preserves the shapes of the content. -/
theorem applyMatch_shape (t : String) (c : List Descendant) (m : BMatch)
    (c2 : List Descendant) (h : applyMatch t c m = .ok c2) :
    shapeListOf c2 = shapeListOf c := by
  cases hpath : m.path with
  | nil =>
    simp only [applyMatch, hpath] at h
    cases h
    rfl
  | cons i rest =>
    cases hd : descend (c.get? i) rest with
    | error e =>
      simp only [applyMatch, hpath, hd] at h
      exact Except.noConfusion h
    | ok o =>
      cases o with
      | none =>
        simp only [applyMatch, hpath, hd] at h
        cases h
        rfl
      | some node =>
        simp only [applyMatch, hpath, hd] at h
        by_cases hlink : isNoteLinkElement node = true
        · rw [if_pos hlink] at h
          cases h
          exact shapeListOf_modifyAt _ (shapeOf_patchLink t) c (i :: rest)
        · rw [if_neg hlink] at h
          cases h
          rfl

/-- A whole fold of patches preserves the shapes of the content. -/
theorem applyMatches_shape (t : String) :
    ∀ (ms : List BMatch) (c c2 : List Descendant),
      applyMatches t c ms = .ok c2 → shapeListOf c2 = shapeListOf c := by
  intro ms
  induction ms with
  | nil =>
    intro c c2 h
    rw [applyMatches] at h
    cases h
    rfl
  | cons m rest ih =>
    intro c c2 h
    cases h0 : applyMatch t c m with
    | error e =>
      simp only [applyMatches, h0] at h
      exact Except.noConfusion h
    | ok c1 =>
      simp only [applyMatches, h0] at h
      exact (ih c1 c2 h).trans (applyMatch_shape t c m c1 h0)

/-- Equal shapes give equal shapes at every index. -/
theorem get?_shape {l1 l2 : List Descendant} (h : shapeListOf l1 = shapeListOf l2)
    (i : Nat) : (l1.get? i).map shapeOf = (l2.get? i).map shapeOf := by
  rw [shapeListOf_eq_map, shapeListOf_eq_map] at h
  rw [← List.get?_map, ← List.get?_map, h]

/-- The rewriter's descent is determined by the shapes: over shape-equal
starting points it throws together, and otherwise lands on shape-equal
results. -/
theorem descend_shape :
    ∀ (p : List Nat) (o1 o2 : Option Descendant),
      o1.map shapeOf = o2.map shapeOf →
      (descend o1 p = .error () ∧ descend o2 p = .error ()) ∨
      (∃ r1 r2, descend o1 p = .ok r1 ∧ descend o2 p = .ok r2 ∧
        r1.map shapeOf = r2.map shapeOf) := by
  intro p
  induction p with
  | nil =>
    intro o1 o2 h
    exact Or.inr ⟨o1, o2, by rw [descend], by rw [descend], h⟩
  | cons i rest ih =>
    intro o1 o2 h
    cases o1 with
    | none =>
      cases o2 with
      | none => exact Or.inl ⟨rfl, rfl⟩
      | some d2 =>
        have h2 : (none : Option Shape) = some (shapeOf d2) := h
        exact Option.noConfusion h2
    | some d1 =>
      cases o2 with
      | none =>
        have h2 : some (shapeOf d1) = (none : Option Shape) := h
        exact Option.noConfusion h2
      | some d2 =>
        have h2 : shapeOf d1 = shapeOf d2 := Option.some.inj h
        cases d1 with
        | text s1 =>
          cases d2 with
          | text s2 => exact Or.inl ⟨rfl, rfl⟩
          | element ty2 ni2 nt2 itt2 et2 cs2 =>
            rw [shapeOf, shapeOf] at h2
            exact Shape.noConfusion h2
        | element ty1 ni1 nt1 itt1 et1 cs1 =>
          cases d2 with
          | text s2 =>
            rw [shapeOf, shapeOf] at h2
            exact Shape.noConfusion h2
          | element ty2 ni2 nt2 itt2 et2 cs2 =>
            rw [shapeOf, shapeOf] at h2
            have hcs : shapeListOf cs1 = shapeListOf cs2 := (Shape.element.inj h2).2
            exact ih (cs1.get? i) (cs2.get? i) (get?_shape hcs i)

/-- The rewriter's link guard is determined by the shape. -/
theorem isNoteLinkElement_shape {d1 d2 : Descendant} (h : shapeOf d1 = shapeOf d2) :
    isNoteLinkElement d1 = isNoteLinkElement d2 := by
  cases d1 with
  | text s1 =>
    cases d2 with
    | text s2 => rfl
    | element ty2 ni2 nt2 itt2 et2 cs2 => rw [shapeOf, shapeOf] at h; exact Shape.noConfusion h
  | element ty1 ni1 nt1 itt1 et1 cs1 =>
    cases d2 with
    | text s2 => rw [shapeOf, shapeOf] at h; exact Shape.noConfusion h
    | element ty2 ni2 nt2 itt2 et2 cs2 =>
      rw [shapeOf, shapeOf] at h
      have hty : ty1 = ty2 := (Shape.element.inj h).1
      subst hty
      cases ty1 <;> rfl

/-- Looking up the modified index after `listModify`. -/
theorem listModify_get?_same (f : Descendant → Descendant) :
    ∀ (l : List Descendant) (i : Nat) (a : Descendant),
      l.get? i = some a → (listModify f l i).get? i = some (f a) := by
  intro l
  induction l with
  | nil => intro i a h; simp at h
  | cons c rest ih =>
    intro i a h
    cases i with
    | zero =>
      have hc : c = a := by simpa using h
      subst hc
      rfl
    | succ i => exact ih i a (by simpa using h)

/-- Looking up any other index after `listModify`. -/
theorem listModify_get?_ne (f : Descendant → Descendant) :
    ∀ (l : List Descendant) (i k : Nat), k ≠ i →
      (listModify f l i).get? k = l.get? k := by
  intro l
  induction l with
  | nil => intro i k hk; rfl
  | cons c rest ih =>
    intro i k hk
    cases i with
    | zero =>
      cases k with
      | zero => exact absurd rfl hk
      | succ k => rfl
    | succ i =>
      cases k with
      | zero => rfl
      | succ k => exact ih i k (by omega)

/-- `listModify` with a function fixing the looked-up element is the
identity. -/
theorem listModify_id (f : Descendant → Descendant) :
    ∀ (l : List Descendant) (i : Nat) (a : Descendant),
      l.get? i = some a → f a = a → listModify f l i = l := by
  intro l
  induction l with
  | nil => intro i a h; simp at h
  | cons c rest ih =>
    intro i a h hfix
    cases i with
    | zero =>
      have hc : c = a := by simpa using h
      subst hc
      rw [listModify, hfix]
    | succ i => rw [listModify, ih i a (by simpa using h) hfix]

/-- A successful descent splits off its non-`undefined` starting node. -/
theorem descend_ok_some_start :
    ∀ (p : List Nat) (o : Option Descendant) (node : Descendant),
      descend o p = .ok (some node) →
      ∃ d, o = some d ∧ descend (some d) p = .ok (some node) := by
  intro p o node h
  cases o with
  | some d => exact ⟨d, rfl, h⟩
  | none =>
    cases p with
    | nil =>
      rw [descend] at h
      exact Option.noConfusion (Except.ok.inj h)
    | cons i rest => exact Except.noConfusion h

/-- A descent taking at least one step starts at an element and continues
in its children. -/
theorem descend_cons_elim :
    ∀ (d : Descendant) (k : Nat) (r : List Nat) (x : Option Descendant),
      descend (some d) (k :: r) = .ok x →
      ∃ ty ni nt itt et cs, d = .element ty ni nt itt et cs ∧
        descend (cs.get? k) r = .ok x := by
  intro d k r x h
  cases d with
  | text s => exact Except.noConfusion h
  | element ty ni nt itt et cs => exact ⟨ty, ni, nt, itt, et, cs, rfl, h⟩


/-- Setting the `text` property twice with the same string is the same as
setting it once. -/
theorem jsSetText_idem (t : String) (c : Descendant) :
    jsSetText t (jsSetText t c) = jsSetText t c := by
  cases c <;> rfl

/-- Patching a link node twice with the same title is the same as patching
it once. -/
theorem patchLink_idem (t : String) (d : Descendant) :
    patchLink t (patchLink t d) = patchLink t d := by
  cases d with
  | text s => rfl
  | element ty ni nt itt et cs =>
    rw [patchLink, patchLink]
    by_cases h : itt == some true
    · rw [if_pos h, if_pos h, List.map_map]
      congr 1
      exact List.map_congr_left (fun a _ => jsSetText_idem t a)
    · rw [if_neg h, if_neg h]

/-- Patching does not change whether the node is a note-link element. -/
theorem isNoteLinkElement_patchLink (t : String) (d : Descendant) :
    isNoteLinkElement (patchLink t d) = isNoteLinkElement d := by
  cases d with
  | text s => rfl
  | element ty ni nt itt et cs => cases ty <;> rfl

/-- The note-link test only reads the variant tag. -/
theorem isNoteLinkElement_elem (ty : ElementType) (ni nt : Option String)
    (itt : Option Bool) (et : Option String) (cs : List Descendant) :
    isNoteLinkElement (.element ty ni nt itt et cs) = (ty == ElementType.noteLink) := by
  cases ty <;> rfl

/-- Components of a patch fixed point: the stored title already equals the
new title and the children are fixed by the conditional text rewrite. -/
theorem patchLink_fix_elim (t : String) (ty : ElementType) (ni nt : Option String)
    (itt : Option Bool) (et : Option String) (cs : List Descendant)
    (h : patchLink t (.element ty ni nt itt et cs) = .element ty ni nt itt et cs) :
    nt = some t ∧ (if itt == some true then cs.map (jsSetText t) else cs) = cs := by
  rw [patchLink] at h
  have h2 := Descendant.element.inj h
  exact ⟨h2.2.2.1.symm, h2.2.2.2.2.2⟩

/-- A patch-fixed link node stays a patch-fixed link node after its `text`
property is set to the same title. -/
theorem patchLink_fix_jsSetText (t : String) (np : Descendant)
    (hlink : isNoteLinkElement np = true) (hfix : patchLink t np = np) :
    isNoteLinkElement (jsSetText t np) = true ∧
      patchLink t (jsSetText t np) = jsSetText t np := by
  cases np with
  | text s => simp [isNoteLinkElement] at hlink
  | element ty ni nt itt et cs =>
    rcases patchLink_fix_elim t ty ni nt itt et cs hfix with ⟨hnt, hcs⟩
    constructor
    · rw [jsSetText, isNoteLinkElement_elem]
      rw [isNoteLinkElement_elem] at hlink
      exact hlink
    · rw [jsSetText, patchLink, hcs, hnt]

/-- If a node's `text` property is already the new title, it stays so after
any deeper patch along a path. -/
theorem jsSetText_fix_modifyNode (t : String) (q : List Nat) (c : Descendant)
    (hfix : jsSetText t c = c) :
    jsSetText t (modifyNode (patchLink t) q c) = modifyNode (patchLink t) q c := by
  cases q with
  | nil =>
    cases c with
    | text s =>
      have hts : Descendant.text t = Descendant.text s := hfix
      rw [modifyNode, patchLink, jsSetText]
      exact hts
    | element ty ni nt itt et cs =>
      have het : et = some t := (Descendant.element.inj hfix).2.2.2.2.1.symm
      rw [modifyNode, patchLink, jsSetText, het]
  | cons k r =>
    cases c with
    | text s =>
      rw [modifyNode]
      exact hfix
    | element ty ni nt itt et cs =>
      have het : et = some t := (Descendant.element.inj hfix).2.2.2.2.1.symm
      rw [modifyNode, jsSetText, het]

/-- Pointwise consequence of a list being fixed by a map. -/
theorem map_eq_self_get? (f : Descendant → Descendant) :
    ∀ (l : List Descendant), l.map f = l →
      ∀ (k : Nat) (a : Descendant), l.get? k = some a → f a = a := by
  intro l
  induction l with
  | nil => intro h k a ha; simp at ha
  | cons c rest ih =>
    intro h k a ha
    have h2 := List.cons.inj h
    cases k with
    | zero =>
      have hc : c = a := by simpa using ha
      subst hc
      exact h2.1
    | succ k => exact ih h2.2 k a (by simpa using ha)

/-- Looking up the modified index after `listModify`, option form. -/
theorem listModify_get?_self (f : Descendant → Descendant) :
    ∀ (l : List Descendant) (i : Nat),
      (listModify f l i).get? i = (l.get? i).map f := by
  intro l
  induction l with
  | nil => intro i; rfl
  | cons c rest ih =>
    intro i
    cases i with
    | zero => rfl
    | succ i => exact ih i

/-- A children list fixed by the text rewrite stays fixed after one child
is patched deeper along a path. -/
theorem map_fix_listModify (t : String) (q : List Nat) (cs : List Descendant) (j : Nat)
    (hmap : cs.map (jsSetText t) = cs) :
    (listModify (modifyNode (patchLink t) q) cs j).map (jsSetText t) =
      listModify (modifyNode (patchLink t) q) cs j := by
  apply List.ext_get?
  intro n
  rw [List.get?_map]
  by_cases hn : n = j
  · subst hn
    rw [listModify_get?_self]
    cases ha : cs.get? n with
    | none => rfl
    | some a =>
      have hfa : jsSetText t a = a := map_eq_self_get? _ cs hmap n a ha
      have := jsSetText_fix_modifyNode t q a hfa
      simp [this]
  · rw [listModify_get?_ne _ _ _ _ hn]
    cases ha : cs.get? n with
    | none => rfl
    | some a =>
      have hfa : jsSetText t a = a := map_eq_self_get? _ cs hmap n a ha
      simp [hfa]

/-- Descending into a node whose `text` property was set reads the same
children. -/
theorem descend_jsSetText_cons (t : String) (ty : ElementType) (ni nt : Option String)
    (itt : Option Bool) (et : Option String) (cs : List Descendant) (k : Nat)
    (r : List Nat) :
    descend (some (jsSetText t (.element ty ni nt itt et cs))) (k :: r) =
      descend (cs.get? k) r := by
  rw [jsSetText, descend]

/-- Modifying along a successfully-descending path and looking the path up
again finds the modified node. -/
theorem descend_modifyNode (f : Descendant → Descendant) :
    ∀ (p : List Nat) (d node : Descendant),
      descend (some d) p = .ok (some node) →
      descend (some (modifyNode f p d)) p = .ok (some (f node)) := by
  intro p
  induction p with
  | nil =>
    intro d node h
    rw [descend] at h
    have hd : d = node := Option.some.inj (Except.ok.inj h)
    subst hd
    rw [modifyNode, descend]
  | cons k r ih =>
    intro d node h
    rcases descend_cons_elim d k r _ h with ⟨ty, ni, nt, itt, et, cs, hde, hdesc⟩
    subst hde
    rcases descend_ok_some_start r (cs.get? k) node hdesc with ⟨ck, hck, hdesc2⟩
    rw [modifyNode, descend, listModify_get?_self, hck]
    exact ih ck node hdesc2

/-- Modifying with a function that fixes the resolved node is the identity
(node form). -/
theorem modifyNode_id_of_descend (f : Descendant → Descendant) :
    ∀ (p : List Nat) (d node : Descendant),
      descend (some d) p = .ok (some node) → f node = node → modifyNode f p d = d := by
  intro p
  induction p with
  | nil =>
    intro d node h hfix
    rw [descend] at h
    have hd : d = node := Option.some.inj (Except.ok.inj h)
    subst hd
    rw [modifyNode, hfix]
  | cons k r ih =>
    intro d node h hfix
    rcases descend_cons_elim d k r _ h with ⟨ty, ni, nt, itt, et, cs, hde, hdesc⟩
    subst hde
    rcases descend_ok_some_start r (cs.get? k) node hdesc with ⟨ck, hck, hdesc2⟩
    rw [modifyNode, listModify_id _ cs k ck hck (ih ck node hdesc2 hfix)]

/-- Modifying with a function that fixes the resolved node is the identity
(content form). -/
theorem modifyAt_id_of_descend (f : Descendant → Descendant) (l : List Descendant)
    (i : Nat) (rest : List Nat) (node : Descendant)
    (h : descend (l.get? i) rest = .ok (some node)) (hfix : f node = node) :
    modifyAt f l (i :: rest) = l := by
  rcases descend_ok_some_start rest (l.get? i) node h with ⟨d, hdi, hdesc⟩
  rw [modifyAt]
  exact listModify_id _ l i d hdi (modifyNode_id_of_descend f rest d node hdesc hfix)

/-- Core transfer lemma: patching the link at path `q` inside a node keeps
every patch-fixed link at any path `p` patch-fixed (the link at `p` itself,
a link under a patched link's rewritten child, and links elsewhere are all
preserved). -/
theorem fixed_transfer_node (t : String) :
    ∀ (q : List Nat) (d : Descendant) (p : List Nat) (np nq : Descendant),
      descend (some d) p = .ok (some np) → isNoteLinkElement np = true →
      patchLink t np = np →
      descend (some d) q = .ok (some nq) → isNoteLinkElement nq = true →
      ∃ np2, descend (some (modifyNode (patchLink t) q d)) p = .ok (some np2) ∧
        isNoteLinkElement np2 = true ∧ patchLink t np2 = np2 := by
  intro q
  induction q with
  | nil =>
    intro d p np nq hp hlinkp hfixp hq hlinknq
    have hdnq : d = nq := by
      rw [descend] at hq
      exact Option.some.inj (Except.ok.inj hq)
    subst hdnq
    rw [modifyNode]
    cases p with
    | nil =>
      have hdnp : d = np := by
        rw [descend] at hp
        exact Option.some.inj (Except.ok.inj hp)
      subst hdnp
      exact ⟨patchLink t d, by rw [descend], by
        rw [isNoteLinkElement_patchLink]; exact hlinkp, patchLink_idem t d⟩
    | cons i p2 =>
      rcases descend_cons_elim d i p2 _ hp with ⟨ty, ni, nt, itt, et, cs, hde, hdesc⟩
      subst hde
      rw [patchLink]
      by_cases hitt : itt == some true
      · rw [if_pos hitt]
        rcases descend_ok_some_start p2 (cs.get? i) np hdesc with ⟨ci, hci, hdesc2⟩
        have hmap : (cs.map (jsSetText t)).get? i = some (jsSetText t ci) := by
          rw [List.get?_map, hci]
          rfl
        cases p2 with
        | nil =>
          have hnp : ci = np := by
            rw [descend] at hdesc2
            exact Option.some.inj (Except.ok.inj hdesc2)
          subst hnp
          rcases patchLink_fix_jsSetText t ci hlinkp hfixp with ⟨hl2, hf2⟩
          refine ⟨jsSetText t ci, ?_, hl2, hf2⟩
          rw [descend, hmap, descend]
        | cons k p3 =>
          rcases descend_cons_elim ci k p3 _ hdesc2 with ⟨ty2, ni2, nt2, itt2, et2, cs2, hcie, hdesc3⟩
          subst hcie
          refine ⟨np, ?_, hlinkp, hfixp⟩
          rw [descend, hmap, descend_jsSetText_cons]
          exact hdesc3
      · rw [if_neg hitt]
        refine ⟨np, ?_, hlinkp, hfixp⟩
        rw [descend]
        exact hdesc
  | cons j q2 ihq =>
    intro d p np nq hp hlinkp hfixp hq hlinknq
    rcases descend_cons_elim d j q2 _ hq with ⟨ty, ni, nt, itt, et, cs, hde, hdescq⟩
    subst hde
    rcases descend_ok_some_start q2 (cs.get? j) nq hdescq with ⟨cj, hcj, hdescq2⟩
    rw [modifyNode]
    cases p with
    | nil =>
      have hnp : Descendant.element ty ni nt itt et cs = np := by
        rw [descend] at hp
        exact Option.some.inj (Except.ok.inj hp)
      have hfixd : patchLink t (.element ty ni nt itt et cs) = .element ty ni nt itt et cs := by
        rw [hnp]; exact hfixp
      have hlinkd : isNoteLinkElement (.element ty ni nt itt et cs) = true := by
        rw [hnp]; exact hlinkp
      rcases patchLink_fix_elim t ty ni nt itt et cs hfixd with ⟨hnt, hcs⟩
      refine ⟨.element ty ni nt itt et (listModify (modifyNode (patchLink t) q2) cs j),
        by rw [descend], ?_, ?_⟩
      · rw [isNoteLinkElement_elem]
        rw [isNoteLinkElement_elem] at hlinkd
        exact hlinkd
      · rw [patchLink, hnt]
        by_cases hitt : itt == some true
        · rw [if_pos hitt]
          rw [if_pos hitt] at hcs
          rw [map_fix_listModify t q2 cs j hcs]
        · rw [if_neg hitt]
    | cons i p2 =>
      rw [descend] at hp
      by_cases hij : i = j
      · subst hij
        rcases descend_ok_some_start p2 (cs.get? i) np hp with ⟨ci, hci, hp2⟩
        have hcicj : ci = cj := by
          rw [hci] at hcj
          exact Option.some.inj hcj
        subst hcicj
        rcases ihq ci p2 np nq hp2 hlinkp hfixp hdescq2 hlinknq with ⟨np2, hd2, hl2, hf2⟩
        refine ⟨np2, ?_, hl2, hf2⟩
        rw [descend, listModify_get?_self, hci]
        exact hd2
      · refine ⟨np, ?_, hlinkp, hfixp⟩
        rw [descend, listModify_get?_ne _ _ _ _ hij]
        exact hp


/-- A patch-fixed path stays patch-fixed across one applied patch. -/
theorem fixedAt_applyMatch (t : String) (c : List Descendant) (p : List Nat)
    (m : BMatch) (c2 : List Descendant) (hfix : FixedAt t c p)
    (h : applyMatch t c m = .ok c2) : FixedAt t c2 p := by
  cases p with
  | nil => trivial
  | cons i rest =>
    rcases hfix with ⟨node, hdesc, hlink, hfixnode⟩
    cases hpath : m.path with
    | nil =>
      simp only [applyMatch, hpath] at h
      cases h
      exact ⟨node, hdesc, hlink, hfixnode⟩
    | cons i2 rest2 =>
      cases hd : descend (c.get? i2) rest2 with
      | error e =>
        simp only [applyMatch, hpath, hd] at h
        exact Except.noConfusion h
      | ok o =>
        cases o with
        | none =>
          simp only [applyMatch, hpath, hd] at h
          cases h
          exact ⟨node, hdesc, hlink, hfixnode⟩
        | some node2 =>
          simp only [applyMatch, hpath, hd] at h
          by_cases hlink2 : isNoteLinkElement node2 = true
          · rw [if_pos hlink2] at h
            cases h
            rcases descend_ok_some_start rest2 (c.get? i2) node2 hd with ⟨d2, hd2, hdesc2⟩
            by_cases hii : i = i2
            · subst hii
              rcases descend_ok_some_start rest (c.get? i) node hdesc with ⟨d1, hd1, hdesc1⟩
              have hdd : d1 = d2 := by
                rw [hd1] at hd2
                exact Option.some.inj hd2
              subst hdd
              rcases fixed_transfer_node t rest2 d1 rest node node2 hdesc1 hlink hfixnode
                hdesc2 hlink2 with ⟨np2, hnp2, hl2, hf2⟩
              refine ⟨np2, ?_, hl2, hf2⟩
              rw [modifyAt, listModify_get?_self, hd1]
              exact hnp2
            · refine ⟨node, ?_, hlink, hfixnode⟩
              rw [modifyAt, listModify_get?_ne _ _ _ _ hii]
              exact hdesc
          · rw [if_neg hlink2] at h
            cases h
            exact ⟨node, hdesc, hlink, hfixnode⟩

/-- A patch-fixed path stays patch-fixed across a whole fold of patches. -/
theorem fixedAt_applyMatches (t : String) :
    ∀ (ms : List BMatch) (c c2 : List Descendant) (p : List Nat),
      FixedAt t c p → applyMatches t c ms = .ok c2 → FixedAt t c2 p := by
  intro ms
  induction ms with
  | nil =>
    intro c c2 p hfix h
    rw [applyMatches] at h
    cases h
    exact hfix
  | cons m rest ih =>
    intro c c2 p hfix h
    cases h0 : applyMatch t c m with
    | error e =>
      simp only [applyMatches, h0] at h
      exact Except.noConfusion h
    | ok c1 =>
      simp only [applyMatches, h0] at h
      exact ih c1 c2 p (fixedAt_applyMatch t c p m c1 hfix h0) h

/-- After the rewriter's fold over a match list succeeds, re-applying any
single one of its patches to the final content is a no-op. -/
theorem applyMatch_fixed_after (t : String) :
    ∀ (ms : List BMatch) (c c2 : List Descendant),
      applyMatches t c ms = .ok c2 → ∀ m, m ∈ ms → applyMatch t c2 m = .ok c2 := by
  intro ms
  induction ms with
  | nil => intro c c2 h m hm; simp at hm
  | cons m0 rest ih =>
    intro c c2 h m hm
    cases h0 : applyMatch t c m0 with
    | error e =>
      simp only [applyMatches, h0] at h
      exact Except.noConfusion h
    | ok c1 =>
      simp only [applyMatches, h0] at h
      rcases List.mem_cons.mp hm with heq | hmem
      · subst heq
        have hsh1 : shapeListOf c1 = shapeListOf c := applyMatch_shape t c m c1 h0
        have hsh2 : shapeListOf c2 = shapeListOf c1 := applyMatches_shape t rest c1 c2 h
        have hsh : shapeListOf c = shapeListOf c2 := (hsh2.trans hsh1).symm
        cases hpath : m.path with
        | nil => simp only [applyMatch, hpath]
        | cons i rest_p =>
          cases hd : descend (c.get? i) rest_p with
          | error e =>
            simp only [applyMatch, hpath, hd] at h0
            exact Except.noConfusion h0
          | ok o =>
            have hrel := descend_shape rest_p (c.get? i) (c2.get? i) (get?_shape hsh i)
            cases o with
            | none =>
              rcases hrel with ⟨he1, he2⟩ | ⟨r1, r2, hr1, hr2, hmapsh⟩
              · rw [hd] at he1
                exact Except.noConfusion he1
              · rw [hd] at hr1
                have hr1n : none = r1 := Except.ok.inj hr1
                rw [← hr1n] at hmapsh
                have hr2n : r2 = none := by
                  cases r2 with
                  | none => rfl
                  | some x =>
                    exact Option.noConfusion
                      (show (none : Option Shape) = some (shapeOf x) from hmapsh)
                subst hr2n
                simp only [applyMatch, hpath, hr2]
            | some node =>
              simp only [applyMatch, hpath, hd] at h0
              rcases hrel with ⟨he1, he2⟩ | ⟨r1, r2, hr1, hr2, hmapsh⟩
              · rw [hd] at he1
                exact Except.noConfusion he1
              · rw [hd] at hr1
                have hr1s : some node = r1 := Except.ok.inj hr1
                rw [← hr1s] at hmapsh
                cases r2 with
                | none =>
                  exact Option.noConfusion
                    (show some (shapeOf node) = (none : Option Shape) from hmapsh)
                | some node2 =>
                  have hshn : shapeOf node = shapeOf node2 := Option.some.inj hmapsh
                  by_cases hlink : isNoteLinkElement node = true
                  · rw [if_pos hlink] at h0
                    cases h0
                    rcases descend_ok_some_start rest_p (c.get? i) node hd with ⟨d, hdi, hdesc⟩
                    have hfix1 : FixedAt t (modifyAt (patchLink t) c (i :: rest_p))
                        (i :: rest_p) := by
                      refine ⟨patchLink t node, ?_, ?_, patchLink_idem t node⟩
                      · rw [modifyAt, listModify_get?_self, hdi]
                        exact descend_modifyNode (patchLink t) rest_p d node hdesc
                      · rw [isNoteLinkElement_patchLink]
                        exact hlink
                    have hfix2 : FixedAt t c2 (i :: rest_p) :=
                      fixedAt_applyMatches t rest _ c2 (i :: rest_p) hfix1 h
                    rcases hfix2 with ⟨np, hnp, hlnp, hfnp⟩
                    simp only [applyMatch, hpath, hnp]
                    rw [if_pos hlnp,
                      modifyAt_id_of_descend (patchLink t) c2 i rest_p np hnp hfnp]
                  · rw [if_neg hlink] at h0
                    cases h0
                    have hlink2 : ¬ isNoteLinkElement node2 = true := by
                      rw [← isNoteLinkElement_shape hshn]
                      exact hlink
                    simp only [applyMatch, hpath, hr2]
                    rw [if_neg hlink2]
      · exact ih c1 c2 h m hmem

/-- A fold of patches that are each already no-ops is a no-op. -/
theorem applyMatches_of_fixed (t : String) :
    ∀ (ms : List BMatch) (c : List Descendant),
      (∀ m, m ∈ ms → applyMatch t c m = .ok c) → applyMatches t c ms = .ok c := by
  intro ms
  induction ms with
  | nil => intro c h; rw [applyMatches]
  | cons m0 rest ih =>
    intro c h
    have h0 : applyMatch t c m0 = .ok c := h m0 (List.mem_cons_self _ _)
    simp only [applyMatches, h0]
    exact ih c (fun m hm => h m (List.mem_cons_of_mem _ hm))

/-- C9: the Rewriter's patching is idempotent.  If the fold of all patches
of a match list over a document's content succeeds and produces new
content, then applying the same fold with the same new title to that
produced content succeeds and leaves it unchanged. -/
theorem C9_rewrite_idempotent (t : String) (ms : List BMatch) (c c2 : List Descendant)
    (h : applyMatches t c ms = .ok c2) : applyMatches t c2 ms = .ok c2 :=
  applyMatches_of_fixed t ms c2 (applyMatch_fixed_after t ms c c2 h)

/-- Witness for C9 at the concrete scenario. -/
theorem C9_rewrite_idempotent_witness :
    applyMatches "Bee"
      [.element .paragraph none none none none
        [.element .noteLink (some "b") (some "Bee") (some true) none [.text "Bee"]]]
      [⟨"B", [0, 0]⟩] =
    .ok [.element .paragraph none none none none
        [.element .noteLink (some "b") (some "Bee") (some true) none [.text "Bee"]]] :=
  C9_rewrite_idempotent "Bee" [⟨"B", [0, 0]⟩] docA.content
    [.element .paragraph none none none none
      [.element .noteLink (some "b") (some "Bee") (some true) none [.text "Bee"]]] rfl

end Backlinks
